import Mathlib

/-!
# Verification of the QSF factorization engine

Shallow embedding of `src/QSF.py` (SVECTOR-CORPORATION/QSF), a classical
mock-up of Shor-style integer factorization.  The Python functions embedded
here are:

* `QuantumSymmetryFactorization.gcd`       →  `pyGcd`
* `qsfQuantumComputer.simulate_period_finding` → `simulate_period_finding`
  (via the fuel-counted loop `periodLoop`, one fuel unit per element of
  `range(1, N)`)
* `qsfQuantumComputer.run_quantum_circuit` →  `run_quantum_circuit`
* `QuantumSymmetryFactorization.quantum_period_estimate` → `quantum_period_estimate`
* `QuantumSymmetryFactorization.extract_symmetry` → `extract_symmetry`
* `QuantumSymmetryFactorization.quantum_symmetry_factor` →
  `quantum_symmetry_factor` (the random base `a` drawn by
  `random.randint(2, N - 1)` is made an explicit argument, and the
  order-finder / extractor are parameters of `quantum_symmetry_factor_gen`,
  instantiated with the real ones)

Python integers are unbounded; values that stay nonnegative in the program
(`N`, `a`, `r`, the loop counter) are embedded as `ℕ`, while the candidate
factors and the arguments of the hand-written gcd are embedded as `ℤ`
because `x - 1` may be negative.  Python's `%` on integers is floored
remainder, i.e. `Int.fmod`; Python's `//` is floored division, i.e.
`Int.fdiv`.  The `print` calls are diagnostic side effects with no influence
on any returned value and are not modelled.
-/

/-- Bound used for termination of the Euclidean loop: Python's floored
remainder (`Int.fmod`) strictly decreases the absolute value of the second
loop variable whenever that variable is nonzero. -/
theorem natAbs_fmod_lt (a : ℤ) {b : ℤ} (hb : b ≠ 0) :
    (Int.fmod a b).natAbs < b.natAbs := by
  cases b with
  | ofNat n =>
    cases n with
    | zero => exact absurd rfl hb
    | succ m =>
      have hpos : (0 : ℤ) < Int.ofNat (m + 1) := Int.ofNat_lt.mpr (Nat.succ_pos m)
      have h1 : 0 ≤ Int.fmod a (Int.ofNat (m + 1)) := Int.fmod_nonneg' a hpos
      have h2 : Int.fmod a (Int.ofNat (m + 1)) < Int.ofNat (m + 1) :=
        Int.fmod_lt_of_pos a hpos
      omega
  | negSucc n =>
    cases a with
    | ofNat m =>
      cases m with
      | zero =>
        have h0 : Int.fmod (Int.ofNat 0) (Int.negSucc n) = 0 := rfl
        rw [h0]
        simp [Int.natAbs_negSucc]
      | succ k =>
        have h0 : Int.fmod (Int.ofNat (k + 1)) (Int.negSucc n) =
            Int.subNatNat (k % (n + 1)) n := rfl
        have hk : k % (n + 1) < n + 1 := Nat.mod_lt k (Nat.succ_pos n)
        rw [h0, Int.subNatNat_eq_coe]
        simp only [Int.natAbs_negSucc]
        omega
    | negSucc m =>
      have h0 : Int.fmod (Int.negSucc m) (Int.negSucc n) =
          -Int.ofNat ((m + 1) % (n + 1)) := rfl
      have hk : (m + 1) % (n + 1) < n + 1 := Nat.mod_lt (m + 1) (Nat.succ_pos n)
      rw [h0, Int.natAbs_neg]
      exact hk

/-- Embedding of the hand-written Euclidean loop
`QuantumSymmetryFactorization.gcd` (src/QSF.py, lines 53-57):

```
while b != 0:
    a, b = b, a % b
return a
```

Python `%` on integers is floored remainder (`Int.fmod`).  Lean accepts this
as a total function, which is the termination argument for the loop. -/
def pyGcd (a b : ℤ) : ℤ :=
  if h : b = 0 then a else pyGcd b (Int.fmod a b)
termination_by b.natAbs
decreasing_by exact natAbs_fmod_lt a h

theorem pyGcd_zero (a : ℤ) : pyGcd a 0 = a := by
  rw [pyGcd]
  simp

theorem pyGcd_of_ne_zero (a : ℤ) {b : ℤ} (hb : b ≠ 0) :
    pyGcd a b = pyGcd b (Int.fmod a b) := by
  rw [pyGcd, dif_neg hb]

/-- Replacing the first argument of `Int.gcd` by its floored remainder does
not change the gcd. -/
theorem gcd_fmod_left (a b : ℤ) : Int.gcd (Int.fmod a b) b = Int.gcd a b := by
  have hab : a = Int.fmod a b + b * Int.fdiv a b := (Int.fmod_add_fdiv a b).symm
  apply Nat.dvd_antisymm
  · apply Int.natCast_dvd_natCast.mp
    apply Int.dvd_gcd
    · calc (Int.gcd (Int.fmod a b) b : ℤ)
          ∣ Int.fmod a b + b * Int.fdiv a b :=
            dvd_add Int.gcd_dvd_left (Dvd.dvd.mul_right Int.gcd_dvd_right _)
        _ = a := hab.symm
    · exact Int.gcd_dvd_right
  · apply Int.natCast_dvd_natCast.mp
    apply Int.dvd_gcd
    · have h1 : (Int.gcd a b : ℤ) ∣ a := Int.gcd_dvd_left
      have h2 : (Int.gcd a b : ℤ) ∣ b * Int.fdiv a b :=
        Dvd.dvd.mul_right Int.gcd_dvd_right _
      have h3 : (Int.gcd a b : ℤ) ∣ a - b * Int.fdiv a b := dvd_sub h1 h2
      have h4 : Int.fmod a b = a - b * Int.fdiv a b := Int.fmod_def a b
      rw [h4]
      exact h3
    · exact Int.gcd_dvd_right

/-- The Euclidean loop computes the (nonnegative) gcd whenever its second
argument is positive, regardless of the sign of the first. -/
theorem pyGcd_eq_gcd_pos (b : ℤ) (hb : 0 < b) (a : ℤ) :
    pyGcd a b = Int.gcd a b := by
  rw [pyGcd_of_ne_zero a (by omega)]
  have hc0 : 0 ≤ Int.fmod a b := Int.fmod_nonneg' a hb
  have hcb : Int.fmod a b < b := Int.fmod_lt_of_pos a hb
  by_cases h : Int.fmod a b = 0
  · rw [h, pyGcd_zero]
    have hdvd : b ∣ a := by
      have := Int.fmod_add_fdiv a b
      rw [h, zero_add] at this
      exact ⟨Int.fdiv a b, this.symm⟩
    rw [Int.gcd_eq_right hdvd, Int.natAbs_of_nonneg (le_of_lt hb)]
  · have hrec : pyGcd b (Int.fmod a b) = Int.gcd b (Int.fmod a b) :=
      pyGcd_eq_gcd_pos (Int.fmod a b) (by omega) b
    rw [hrec, Int.gcd_comm, gcd_fmod_left]
termination_by b.natAbs
decreasing_by exact natAbs_fmod_lt a (by omega)

/-- The Euclidean loop computes the gcd on all nonnegative inputs. -/
theorem pyGcd_eq_gcd_nonneg (a b : ℤ) (ha : 0 ≤ a) (hb : 0 ≤ b) :
    pyGcd a b = Int.gcd a b := by
  rcases lt_or_eq_of_le hb with hpos | hzero
  · exact pyGcd_eq_gcd_pos b hpos a
  · rw [← hzero, pyGcd_zero, Int.gcd_zero_right, Int.natAbs_of_nonneg ha]

/-- Body of the loop `for r in range(1, N)` in
`qsfQuantumComputer.simulate_period_finding` (src/QSF.py, lines 33-39):
`fuel` counts the iterations still to perform and `r` is the current loop
counter, so the initial call uses `fuel = N - 1` (the number of elements of
`range(1, N)`) and `r = 1`.  Python's three-argument `pow(a, r, N)` is
`a ^ r % N`. -/
def periodLoop (a N : ℕ) : ℕ → ℕ → Option ℕ
  | 0, _ => none
  | fuel + 1, r => if a ^ r % N = 1 then some r else periodLoop a N fuel (r + 1)

/-- Embedding of `qsfQuantumComputer.simulate_period_finding` (src/QSF.py,
lines 33-39): return the first `r` in `range(1, N)` with
`pow(a, r, N) == 1`, and `None` if the loop falls through. -/
def simulate_period_finding (a N : ℕ) : Option ℕ :=
  periodLoop a N (N - 1) 1

/-- Embedding of `qsfQuantumComputer.run_quantum_circuit` (src/QSF.py, lines
22-31), which just delegates to `simulate_period_finding` (the `print` is a
diagnostic side effect). -/
def run_quantum_circuit (a N : ℕ) : Option ℕ :=
  simulate_period_finding a N

/-- Embedding of `QuantumSymmetryFactorization.quantum_period_estimate`
(src/QSF.py, lines 59-61), which delegates to `run_quantum_circuit`. -/
def quantum_period_estimate (a N : ℕ) : Option ℕ :=
  run_quantum_circuit a N

/-- Characterization of the linear search `periodLoop`: started at counter
`r` with `N - r` iterations left, it returns the first hit in `[r, N)` and
`none` exactly when there is none. -/
theorem periodLoop_spec (a N : ℕ) :
    ∀ fuel r, r + fuel = N →
      (∀ p, periodLoop a N fuel r = some p →
        r ≤ p ∧ p < N ∧ a ^ p % N = 1 ∧ ∀ s, r ≤ s → s < p → a ^ s % N ≠ 1) ∧
      (periodLoop a N fuel r = none → ∀ s, r ≤ s → s < N → a ^ s % N ≠ 1) := by
  intro fuel
  induction fuel with
  | zero =>
    intro r hr
    constructor
    · intro p hp
      simp [periodLoop] at hp
    · intro _ s hs1 hs2
      omega
  | succ n ih =>
    intro r hr
    constructor
    · intro p hp
      rw [periodLoop] at hp
      by_cases hcond : a ^ r % N = 1
      · rw [if_pos hcond] at hp
        have hrp : r = p := by
          injection hp
        subst hrp
        exact ⟨le_refl r, by omega, hcond, fun s hs1 hs2 => by omega⟩
      · rw [if_neg hcond] at hp
        obtain ⟨h1, h2, h3, h4⟩ := (ih (r + 1) (by omega)).1 p hp
        refine ⟨by omega, h2, h3, fun s hs1 hs2 => ?_⟩
        by_cases hsr : s = r
        · rw [hsr]
          exact hcond
        · exact h4 s (by omega) hs2
    · intro hp s hs1 hs2
      rw [periodLoop] at hp
      by_cases hcond : a ^ r % N = 1
      · rw [if_pos hcond] at hp
        cases hp
      · rw [if_neg hcond] at hp
        by_cases hsr : s = r
        · rw [hsr]
          exact hcond
        · exact (ih (r + 1) (by omega)).2 hp s (by omega) hs2

/-- Embedding of `QuantumSymmetryFactorization.extract_symmetry` (src/QSF.py,
lines 63-74): compute `x = pow(a, r // 2, N)`; in the degenerate case
`x == 1 or x == N - 1` return `(None, None)`, otherwise return the pair
`(gcd(x - 1, N), gcd(x + 1, N))` computed by the hand-written Euclidean
loop.  The subtraction `x - 1` is Python integer subtraction, so it is taken
in `ℤ` (it is `-1` when `x = 0`). -/
def extract_symmetry (a r N : ℕ) : Option ℤ × Option ℤ :=
  let x := a ^ (r / 2) % N
  if x = 1 ∨ x = N - 1 then (none, none)
  else (some (pyGcd ((x : ℤ) - 1) (N : ℤ)), some (pyGcd ((x : ℤ) + 1) (N : ℤ)))

/-- Embedding of `QuantumSymmetryFactorization.quantum_symmetry_factor`
(src/QSF.py, lines 76-99), generalized over the order finder and the factor
extractor it invokes (the real ones are `quantum_period_estimate` and
`extract_symmetry`; `quantum_symmetry_factor` below instantiates them).  The
randomly sampled base `a = random.randint(2, N - 1)` is an explicit
argument.  Python's `//` is floored division (`Int.fdiv`), and the guard
`if factor1 and factor2 and factor1 * factor2 == N` treats both `None` and
`0` as falsy. -/
def quantum_symmetry_factor_gen (orderFind : ℕ → ℕ → Option ℕ)
    (extractor : ℕ → ℕ → ℕ → Option ℤ × Option ℤ) (N a : ℕ) :
    Option (ℤ × ℤ) :=
  let gcd_value := pyGcd (a : ℤ) (N : ℤ)
  if 1 < gcd_value then some (gcd_value, Int.fdiv (N : ℤ) gcd_value)
  else
    match orderFind a N with
    | none => none
    | some r =>
      if r % 2 ≠ 0 then none
      else
        match extractor a r N with
        | (some factor1, some factor2) =>
          if factor1 ≠ 0 ∧ factor2 ≠ 0 ∧ factor1 * factor2 = (N : ℤ) then
            some (factor1, factor2)
          else none
        | (_, _) => none

/-- Embedding of `QuantumSymmetryFactorization.quantum_symmetry_factor`
(src/QSF.py, lines 76-99) with the order finder and extractor it actually
calls. -/
def quantum_symmetry_factor (N a : ℕ) : Option (ℤ × ℤ) :=
  quantum_symmetry_factor_gen quantum_period_estimate extract_symmetry N a

/-- Embedding of one call of `quantum_symmetry_factor` including the base
sampling step `a = random.randint(2, N - 1)` (src/QSF.py, line 79):
`random.randint(lo, hi)` raises `ValueError` when the range is empty
(`hi < lo`), which is modelled by the outer `none`; otherwise the call
returns normally with the result for the sampled base `a`. -/
def quantum_symmetry_factor_run (N a : ℕ) : Option (Option (ℤ × ℤ)) :=
  if ((N : ℤ) - 1) < 2 then none
  else some (quantum_symmetry_factor N a)

/-- Mirror of the control flow of `quantum_symmetry_factor` (src/QSF.py,
lines 76-99) recording the orders `r` with which `extract_symmetry` is
invoked during one attempt: no invocation on the trivial-gcd path, on a
failed order search, or on an odd order. -/
def extractor_call_orders (N a : ℕ) : List ℕ :=
  if 1 < pyGcd (a : ℤ) (N : ℤ) then []
  else
    match quantum_period_estimate a N with
    | none => []
    | some r => if r % 2 ≠ 0 then [] else [r]

/-- Unfolding equation for `extract_symmetry` with the local `x` inlined. -/
theorem extract_symmetry_eq (a r N : ℕ) :
    extract_symmetry a r N =
      if a ^ (r / 2) % N = 1 ∨ a ^ (r / 2) % N = N - 1 then (none, none)
      else (some (pyGcd (((a ^ (r / 2) % N : ℕ) : ℤ) - 1) (N : ℤ)),
            some (pyGcd (((a ^ (r / 2) % N : ℕ) : ℤ) + 1) (N : ℤ))) := rfl

/-- Unfolding equation for `quantum_symmetry_factor_gen` with the local
`gcd_value` inlined. -/
theorem quantum_symmetry_factor_gen_eq (orderFind : ℕ → ℕ → Option ℕ)
    (extractor : ℕ → ℕ → ℕ → Option ℤ × Option ℤ) (N a : ℕ) :
    quantum_symmetry_factor_gen orderFind extractor N a =
      if 1 < pyGcd (a : ℤ) (N : ℤ) then
        some (pyGcd (a : ℤ) (N : ℤ), Int.fdiv (N : ℤ) (pyGcd (a : ℤ) (N : ℤ)))
      else
        match orderFind a N with
        | none => none
        | some r =>
          if r % 2 ≠ 0 then none
          else
            match extractor a r N with
            | (some factor1, some factor2) =>
              if factor1 ≠ 0 ∧ factor2 ≠ 0 ∧ factor1 * factor2 = (N : ℤ) then
                some (factor1, factor2)
              else none
            | (_, _) => none := rfl

/-- Reduction of the orchestrator when the trivial-gcd branch is not taken
and the order finder fails. -/
theorem quantum_symmetry_factor_gen_none (orderFind : ℕ → ℕ → Option ℕ)
    (extractor : ℕ → ℕ → ℕ → Option ℤ × Option ℤ) (N a : ℕ)
    (hg : ¬ 1 < pyGcd (a : ℤ) (N : ℤ)) (h : orderFind a N = none) :
    quantum_symmetry_factor_gen orderFind extractor N a = none := by
  rw [quantum_symmetry_factor_gen_eq, if_neg hg, h]

/-- Reduction of the orchestrator when the trivial-gcd branch is not taken
and the order finder returns `r`. -/
theorem quantum_symmetry_factor_gen_some (orderFind : ℕ → ℕ → Option ℕ)
    (extractor : ℕ → ℕ → ℕ → Option ℤ × Option ℤ) (N a r : ℕ)
    (hg : ¬ 1 < pyGcd (a : ℤ) (N : ℤ)) (h : orderFind a N = some r) :
    quantum_symmetry_factor_gen orderFind extractor N a =
      (if r % 2 ≠ 0 then none
       else
         match extractor a r N with
         | (some factor1, some factor2) =>
           if factor1 ≠ 0 ∧ factor2 ≠ 0 ∧ factor1 * factor2 = (N : ℤ) then
             some (factor1, factor2)
           else none
         | (_, _) => none) := by
  rw [quantum_symmetry_factor_gen_eq, if_neg hg, h]

/-- C8: the hand-written Euclidean loop `QuantumSymmetryFactorization.gcd`
terminates on every pair of nonnegative integers (it is accepted as a total
function, the remainder strictly decreasing the second variable) and returns
the standard greatest common divisor — the same value as the imported
`math.gcd`, embedded as `Int.gcd`. -/
theorem gcd_loop_correct (a b : ℤ) (ha : 0 ≤ a) (hb : 0 ≤ b) :
    pyGcd a b = (Int.gcd a b : ℤ) ∧ pyGcd a b ∣ a ∧ pyGcd a b ∣ b := by
  have h := pyGcd_eq_gcd_nonneg a b ha hb
  refine ⟨h, ?_, ?_⟩
  · rw [h]
    exact Int.gcd_dvd_left
  · rw [h]
    exact Int.gcd_dvd_right

theorem gcd_loop_correct_witness :
    (0 : ℤ) ≤ 48 ∧ (0 : ℤ) ≤ 18 ∧
      (pyGcd 48 18 = (Int.gcd 48 18 : ℤ) ∧ pyGcd 48 18 ∣ 48 ∧ pyGcd 48 18 ∣ 18) :=
  ⟨by norm_num, by norm_num, gcd_loop_correct 48 18 (by norm_num) (by norm_num)⟩

/-- C2: `simulate_period_finding a N` returns the smallest `r` in `[1, N)`
with `a ^ r % N = 1` when one exists, and `None` when no `r` in `[1, N)`
satisfies the condition; in particular any returned `r` satisfies
`a ^ r % N = 1` and is the minimal such positive integer. -/
theorem simulate_period_finding_least (a N : ℕ) (hN : 2 ≤ N) :
    (∀ p, simulate_period_finding a N = some p →
      1 ≤ p ∧ p < N ∧ a ^ p % N = 1 ∧ ∀ s, 1 ≤ s → s < p → a ^ s % N ≠ 1) ∧
    (simulate_period_finding a N = none →
      ∀ s, 1 ≤ s → s < N → a ^ s % N ≠ 1) := by
  have h := periodLoop_spec a N (N - 1) 1 (by omega)
  exact h

theorem simulate_period_finding_least_witness :
    2 ≤ 15 ∧
      ((∀ p, simulate_period_finding 7 15 = some p →
        1 ≤ p ∧ p < 15 ∧ 7 ^ p % 15 = 1 ∧ ∀ s, 1 ≤ s → s < p → 7 ^ s % 15 ≠ 1) ∧
      (simulate_period_finding 7 15 = none →
        ∀ s, 1 ≤ s → s < 15 → 7 ^ s % 15 ≠ 1)) :=
  ⟨by norm_num, simulate_period_finding_least 7 15 (by norm_num)⟩

/-- C3: for an even order `r` and modulus `N ≥ 2`, with
`x = a ^ (r / 2) % N`, `extract_symmetry a r N` returns the no-factors value
`(None, None)` exactly when `x = 1` or `x = N - 1`, and otherwise returns
the pair `(gcd (x - 1) N, gcd (x + 1) N)`. -/
theorem extract_symmetry_cases (a r N : ℕ) (hN : 2 ≤ N) (hr : r % 2 = 0) :
    (extract_symmetry a r N = (none, none) ↔
      a ^ (r / 2) % N = 1 ∨ a ^ (r / 2) % N = N - 1) ∧
    (a ^ (r / 2) % N ≠ 1 → a ^ (r / 2) % N ≠ N - 1 →
      extract_symmetry a r N =
        (some ((Int.gcd (((a ^ (r / 2) % N : ℕ) : ℤ) - 1) (N : ℤ) : ℤ)),
         some ((Int.gcd (((a ^ (r / 2) % N : ℕ) : ℤ) + 1) (N : ℤ) : ℤ)))) := by
  have hN0 : (0 : ℤ) < (N : ℤ) := by exact_mod_cast (by omega : 0 < N)
  constructor
  · constructor
    · intro hres
      by_contra hx
      rw [extract_symmetry_eq, if_neg hx] at hres
      exact absurd hres (by simp)
    · intro hx
      rw [extract_symmetry_eq, if_pos hx]
  · intro hx1 hx2
    rw [extract_symmetry_eq, if_neg (by tauto),
      pyGcd_eq_gcd_pos (N : ℤ) hN0, pyGcd_eq_gcd_pos (N : ℤ) hN0]

theorem extract_symmetry_cases_witness :
    2 ≤ 15 ∧ 4 % 2 = 0 ∧
      ((extract_symmetry 7 4 15 = (none, none) ↔
        7 ^ (4 / 2) % 15 = 1 ∨ 7 ^ (4 / 2) % 15 = 14) ∧
      (7 ^ (4 / 2) % 15 ≠ 1 → 7 ^ (4 / 2) % 15 ≠ 14 →
        extract_symmetry 7 4 15 =
          (some ((Int.gcd (((7 ^ (4 / 2) % 15 : ℕ) : ℤ) - 1) (15 : ℤ) : ℤ)),
           some ((Int.gcd (((7 ^ (4 / 2) % 15 : ℕ) : ℤ) + 1) (15 : ℤ) : ℤ))))) :=
  ⟨by norm_num, by norm_num, extract_symmetry_cases 7 4 15 (by norm_num) (by norm_num)⟩

/-- C7: the order finder and the factor extractor are deterministic pure
functions: two runs on identical inputs return identical results (the only
nondeterminism in the system is the sampling of the base `a`, which is an
explicit argument of `quantum_symmetry_factor`). -/
theorem order_finder_extractor_deterministic (a a' N N' r r' : ℕ)
    (h1 : a = a') (h2 : N = N') (h3 : r = r') :
    simulate_period_finding a N = simulate_period_finding a' N' ∧
    extract_symmetry a r N = extract_symmetry a' r' N' := by
  subst h1
  subst h2
  subst h3
  exact ⟨rfl, rfl⟩

theorem order_finder_extractor_deterministic_witness :
    (7 : ℕ) = 7 ∧ (15 : ℕ) = 15 ∧ (4 : ℕ) = 4 ∧
      (simulate_period_finding 7 15 = simulate_period_finding 7 15 ∧
       extract_symmetry 7 4 15 = extract_symmetry 7 4 15) :=
  ⟨rfl, rfl, rfl, order_finder_extractor_deterministic 7 7 15 15 4 4 rfl rfl rfl⟩

/-- C4: whenever the sampled base shares a nontrivial divisor with `N`, the
orchestrator terminates successfully with `(g, N / g)` where
`g = gcd a N`, and this result does not depend on the order finder or the
extractor (they are never consulted on this path): the equation holds for
every `orderFind` and `extractor`, in particular for the real ones used by
`quantum_symmetry_factor`. -/
theorem trivial_gcd_shortcut (orderFind : ℕ → ℕ → Option ℕ)
    (extractor : ℕ → ℕ → ℕ → Option ℤ × Option ℤ) (N a : ℕ)
    (hN : 3 ≤ N) (ha2 : 2 ≤ a) (haN : a ≤ N - 1) (hg : 1 < Nat.gcd a N) :
    quantum_symmetry_factor_gen orderFind extractor N a =
      some ((Nat.gcd a N : ℤ), ((N / Nat.gcd a N : ℕ) : ℤ)) ∧
    quantum_symmetry_factor N a =
      some ((Nat.gcd a N : ℤ), ((N / Nat.gcd a N : ℕ) : ℤ)) := by
  have hN0 : (0 : ℤ) < (N : ℤ) := by exact_mod_cast (by omega : 0 < N)
  have hpg : pyGcd (a : ℤ) (N : ℤ) = ((Nat.gcd a N : ℕ) : ℤ) := by
    rw [pyGcd_eq_gcd_pos (N : ℤ) hN0, Int.gcd_natCast_natCast]
  have hfd : Int.fdiv (N : ℤ) ((Nat.gcd a N : ℕ) : ℤ) = ((N / Nat.gcd a N : ℕ) : ℤ) := by
    rw [Int.fdiv_eq_ediv (N : ℤ) (Int.natCast_nonneg _)]
    exact (Int.natCast_div _ _).symm
  have hmain : ∀ f : ℕ → ℕ → Option ℕ, ∀ e : ℕ → ℕ → ℕ → Option ℤ × Option ℤ,
      quantum_symmetry_factor_gen f e N a =
        some ((Nat.gcd a N : ℤ), ((N / Nat.gcd a N : ℕ) : ℤ)) := by
    intro f e
    rw [quantum_symmetry_factor_gen_eq, hpg, if_pos (by exact_mod_cast hg), hfd]
  exact ⟨hmain orderFind extractor, hmain quantum_period_estimate extract_symmetry⟩

theorem trivial_gcd_shortcut_witness :
    3 ≤ 15 ∧ 2 ≤ 5 ∧ 5 ≤ 15 - 1 ∧ 1 < Nat.gcd 5 15 ∧
      (quantum_symmetry_factor_gen quantum_period_estimate extract_symmetry 15 5 =
        some ((Nat.gcd 5 15 : ℤ), ((15 / Nat.gcd 5 15 : ℕ) : ℤ)) ∧
      quantum_symmetry_factor 15 5 =
        some ((Nat.gcd 5 15 : ℤ), ((15 / Nat.gcd 5 15 : ℕ) : ℤ))) :=
  ⟨by norm_num, by norm_num, by norm_num, by decide,
    trivial_gcd_shortcut quantum_period_estimate extract_symmetry 15 5
      (by norm_num) (by norm_num) (by norm_num) (by decide)⟩

/-- C6: the concrete scenario `N = 15`, `a = 7`: the order finder returns
`r = 4` (indeed `7 ^ 4 % 15 = 1`), the extractor computes
`x = 7 ^ 2 % 15 = 4` and returns `(gcd 3 15, gcd 5 15) = (3, 5)`, whose
product is `15`. -/
theorem concrete_scenario_fifteen :
    simulate_period_finding 7 15 = some 4 ∧
    7 ^ 4 % 15 = 1 ∧
    7 ^ (4 / 2) % 15 = 4 ∧ 7 ^ 2 % 15 = 4 ∧
    extract_symmetry 7 4 15 = (some 3, some 5) ∧
    Int.gcd 3 15 = 3 ∧ Int.gcd 5 15 = 5 ∧ (3 : ℤ) * 5 = 15 := by
  have h3 : pyGcd 3 15 = 3 := by
    rw [pyGcd_eq_gcd_pos 15 (by norm_num) 3]
    decide
  have h5 : pyGcd 5 15 = 5 := by
    rw [pyGcd_eq_gcd_pos 15 (by norm_num) 5]
    decide
  have hext : extract_symmetry 7 4 15 = (some (pyGcd 3 15), some (pyGcd 5 15)) := rfl
  refine ⟨by decide, by norm_num, by norm_num, by norm_num, ?_, by decide, by decide,
    by norm_num⟩
  rw [hext, h3, h5]

/-- C9: for `N ≤ 2` the sampling step `random.randint(2, N - 1)` is over an
empty range and raises `ValueError`, so the call does not return at all — in
particular it does not return the failure value `None`; the public operation
is not total over the positive integers. -/
theorem small_modulus_raises (N a : ℕ) (hN : N ≤ 2) :
    quantum_symmetry_factor_run N a = none ∧
    quantum_symmetry_factor_run N a ≠ some none := by
  have h : quantum_symmetry_factor_run N a = none := by
    unfold quantum_symmetry_factor_run
    rw [if_pos]
    have : (N : ℤ) ≤ 2 := by exact_mod_cast hN
    omega
  refine ⟨h, ?_⟩
  rw [h]
  simp

theorem small_modulus_raises_witness :
    (2 : ℕ) ≤ 2 ∧
      (quantum_symmetry_factor_run 2 0 = none ∧
       quantum_symmetry_factor_run 2 0 ≠ some none) :=
  ⟨by norm_num, small_modulus_raises 2 0 (by norm_num)⟩

/-- C10: in every execution of `quantum_symmetry_factor`, the extractor is
only ever invoked with an even order: every order in the invocation record
`extractor_call_orders` (which mirrors the guards of the orchestrator) is
even, so the odd-`r` branch of `extract_symmetry` (where `r // 2` would
truncate) is unreachable through the public factorization path. -/
theorem extractor_invoked_only_with_even_order (N a r : ℕ)
    (h : r ∈ extractor_call_orders N a) : r % 2 = 0 := by
  unfold extractor_call_orders at h
  by_cases hg : 1 < pyGcd (a : ℤ) (N : ℤ)
  · rw [if_pos hg] at h
    simp at h
  · rw [if_neg hg] at h
    cases hper : quantum_period_estimate a N with
    | none =>
      rw [hper] at h
      simp at h
    | some r0 =>
      rw [hper] at h
      have h2 : r ∈ (if r0 % 2 ≠ 0 then ([] : List ℕ) else [r0]) := h
      by_cases hodd : r0 % 2 ≠ 0
      · rw [if_pos hodd] at h2
        simp at h2
      · rw [if_neg hodd] at h2
        simp at h2
        omega

theorem extractor_invoked_only_with_even_order_witness :
    4 ∈ extractor_call_orders 15 7 ∧ 4 % 2 = 0 := by
  have hcall : extractor_call_orders 15 7 = [4] := by
    have h : pyGcd 7 15 = 1 := by
      rw [pyGcd_eq_gcd_pos 15 (by norm_num) 7]
      decide
    have hper : quantum_period_estimate 7 15 = some 4 := by decide
    unfold extractor_call_orders
    rw [show ((7 : ℕ) : ℤ) = (7 : ℤ) from rfl, show ((15 : ℕ) : ℤ) = (15 : ℤ) from rfl,
      h, hper]
    norm_num
  have hmem : 4 ∈ extractor_call_orders 15 7 := by
    rw [hcall]
    simp
  exact ⟨hmem, extractor_invoked_only_with_even_order 15 7 4 hmem⟩

/-- C5: for a base coprime to `N`, every failure of the attempt — order not
found, odd order, degenerate extraction, or verification mismatch — makes
`quantum_symmetry_factor` return the uniform absent value `None` (no
exception is modelled on these paths: the embedded function is total). -/
theorem coprime_failure_paths_return_none (N a : ℕ) (hN : 3 ≤ N) (ha2 : 2 ≤ a)
    (haN : a ≤ N - 1) (hco : Nat.gcd a N = 1) :
    ((simulate_period_finding a N = none ∨
        (∃ r, simulate_period_finding a N = some r ∧ r % 2 = 1)) →
      quantum_symmetry_factor N a = none) ∧
    (∀ r, simulate_period_finding a N = some r → r % 2 = 0 →
      extract_symmetry a r N = (none, none) → quantum_symmetry_factor N a = none) ∧
    (∀ r f1 f2, simulate_period_finding a N = some r → r % 2 = 0 →
      extract_symmetry a r N = (some f1, some f2) → f1 * f2 ≠ (N : ℤ) →
      quantum_symmetry_factor N a = none) := by
  have hN0 : (0 : ℤ) < (N : ℤ) := by exact_mod_cast (by omega : 0 < N)
  have hpg : pyGcd (a : ℤ) (N : ℤ) = 1 := by
    rw [pyGcd_eq_gcd_pos (N : ℤ) hN0, Int.gcd_natCast_natCast, hco]
    norm_num
  have hng : ¬ 1 < pyGcd (a : ℤ) (N : ℤ) := by
    rw [hpg]
    omega
  refine ⟨?_, ?_, ?_⟩
  · intro hdisj
    rcases hdisj with hnone | ⟨r, hr, hodd⟩
    · unfold quantum_symmetry_factor
      exact quantum_symmetry_factor_gen_none quantum_period_estimate extract_symmetry
        N a hng hnone
    · unfold quantum_symmetry_factor
      rw [quantum_symmetry_factor_gen_some quantum_period_estimate extract_symmetry
        N a r hng hr, if_pos (by omega : r % 2 ≠ 0)]
  · intro r hr hreven hext
    unfold quantum_symmetry_factor
    rw [quantum_symmetry_factor_gen_some quantum_period_estimate extract_symmetry
      N a r hng hr, if_neg (by omega : ¬ r % 2 ≠ 0), hext]
  · intro r f1 f2 hr hreven hext hmul
    unfold quantum_symmetry_factor
    rw [quantum_symmetry_factor_gen_some quantum_period_estimate extract_symmetry
      N a r hng hr, if_neg (by omega : ¬ r % 2 ≠ 0), hext]
    have hgoal : (if f1 ≠ 0 ∧ f2 ≠ 0 ∧ f1 * f2 = (N : ℤ) then some (f1, f2) else none) =
        (none : Option (ℤ × ℤ)) := by
      rw [if_neg]
      intro hc
      exact hmul hc.2.2
    exact hgoal

theorem coprime_failure_paths_return_none_witness :
    3 ≤ 15 ∧ 2 ≤ 7 ∧ 7 ≤ 15 - 1 ∧ Nat.gcd 7 15 = 1 ∧
      (((simulate_period_finding 7 15 = none ∨
          (∃ r, simulate_period_finding 7 15 = some r ∧ r % 2 = 1)) →
        quantum_symmetry_factor 15 7 = none) ∧
      (∀ r, simulate_period_finding 7 15 = some r → r % 2 = 0 →
        extract_symmetry 7 r 15 = (none, none) → quantum_symmetry_factor 15 7 = none) ∧
      (∀ r f1 f2, simulate_period_finding 7 15 = some r → r % 2 = 0 →
        extract_symmetry 7 r 15 = (some f1, some f2) → f1 * f2 ≠ (15 : ℤ) →
        quantum_symmetry_factor 15 7 = none)) :=
  ⟨by norm_num, by norm_num, by norm_num, by decide,
    coprime_failure_paths_return_none 15 7 (by norm_num) (by norm_num) (by norm_num)
      (by decide)⟩

/-- C1: whenever `quantum_symmetry_factor` returns a factor pair — via the
trivial-gcd shortcut or via the extraction path — the pair multiplies to `N`
and both factors lie strictly between `1` and `N`. -/
theorem quantum_symmetry_factor_pair_nontrivial (N a : ℕ) (f1 f2 : ℤ) (hN : 3 ≤ N)
    (ha2 : 2 ≤ a) (haN : a ≤ N - 1)
    (hres : quantum_symmetry_factor N a = some (f1, f2)) :
    f1 * f2 = (N : ℤ) ∧ 1 < f1 ∧ f1 < (N : ℤ) ∧ 1 < f2 ∧ f2 < (N : ℤ) := by
  have hN0 : (0 : ℤ) < (N : ℤ) := by exact_mod_cast (by omega : 0 < N)
  have hpg : pyGcd (a : ℤ) (N : ℤ) = ((Nat.gcd a N : ℕ) : ℤ) := by
    rw [pyGcd_eq_gcd_pos (N : ℤ) hN0, Int.gcd_natCast_natCast]
  unfold quantum_symmetry_factor at hres
  by_cases hg : 1 < Nat.gcd a N
  · rw [quantum_symmetry_factor_gen_eq, hpg, if_pos (by exact_mod_cast hg)] at hres
    have hfd : Int.fdiv (N : ℤ) ((Nat.gcd a N : ℕ) : ℤ) =
        ((N / Nat.gcd a N : ℕ) : ℤ) := by
      rw [Int.fdiv_eq_ediv (N : ℤ) (Int.natCast_nonneg _)]
      exact (Int.natCast_div _ _).symm
    rw [hfd] at hres
    simp only [Option.some.injEq, Prod.mk.injEq] at hres
    obtain ⟨hf1, hf2⟩ := hres
    subst hf1
    subst hf2
    have hdvd : Nat.gcd a N ∣ N := Nat.gcd_dvd_right a N
    have hda : Nat.gcd a N ∣ a := Nat.gcd_dvd_left a N
    have hdlea : Nat.gcd a N ≤ a := Nat.le_of_dvd (by omega) hda
    have heq : Nat.gcd a N * (N / Nat.gcd a N) = N := Nat.mul_div_cancel' hdvd
    obtain ⟨q, hqeq⟩ : ∃ q, q = N / Nat.gcd a N := ⟨_, rfl⟩
    rw [← hqeq] at heq ⊢
    have hqN : q < N := by
      rw [hqeq]
      exact Nat.div_lt_self (by omega) (by omega)
    have hq2 : 2 ≤ q := by
      have h0 : q ≠ 0 := by
        intro h0
        rw [h0, Nat.mul_zero] at heq
        omega
      have h1 : q ≠ 1 := by
        intro h1
        rw [h1, Nat.mul_one] at heq
        omega
      omega
    refine ⟨?_, ?_, ?_, ?_, ?_⟩
    · exact_mod_cast heq
    · exact_mod_cast hg
    · exact_mod_cast (by omega : Nat.gcd a N < N)
    · exact_mod_cast (by omega : 1 < q)
    · exact_mod_cast hqN
  · have hng : ¬ (1 : ℤ) < ((Nat.gcd a N : ℕ) : ℤ) := by exact_mod_cast hg
    rw [quantum_symmetry_factor_gen_eq, hpg, if_neg hng] at hres
    cases hper : quantum_period_estimate a N with
    | none =>
      rw [hper] at hres
      exact absurd hres (by simp)
    | some r =>
      rw [hper] at hres
      have hres2 : (if r % 2 ≠ 0 then none
          else
            match extract_symmetry a r N with
            | (some g1, some g2) =>
              if g1 ≠ 0 ∧ g2 ≠ 0 ∧ g1 * g2 = (N : ℤ) then some (g1, g2) else none
            | (_, _) => none) = some (f1, f2) := hres
      by_cases hodd : r % 2 ≠ 0
      · rw [if_pos hodd] at hres2
        exact absurd hres2 (by simp)
      · rw [if_neg hodd] at hres2
        by_cases hx : a ^ (r / 2) % N = 1 ∨ a ^ (r / 2) % N = N - 1
        · rw [show extract_symmetry a r N = (none, none) from by
            rw [extract_symmetry_eq, if_pos hx]] at hres2
          have hres3 : (none : Option (ℤ × ℤ)) = some (f1, f2) := hres2
          exact absurd hres3 (by simp)
        · have hext : extract_symmetry a r N =
              (some (pyGcd (((a ^ (r / 2) % N : ℕ) : ℤ) - 1) (N : ℤ)),
               some (pyGcd (((a ^ (r / 2) % N : ℕ) : ℤ) + 1) (N : ℤ))) := by
            rw [extract_symmetry_eq, if_neg hx]
          rw [hext, pyGcd_eq_gcd_pos (N : ℤ) hN0, pyGcd_eq_gcd_pos (N : ℤ) hN0] at hres2
          push_neg at hx
          obtain ⟨hx1, hx2⟩ := hx
          set x := a ^ (r / 2) % N with hxdef
          have hxlt : x < N := Nat.mod_lt _ (by omega)
          set d1 := Int.gcd ((x : ℤ) - 1) (N : ℤ) with hd1def
          set d2 := Int.gcd ((x : ℤ) + 1) (N : ℤ) with hd2def
          have hres3 : (if (d1 : ℤ) ≠ 0 ∧ (d2 : ℤ) ≠ 0 ∧ (d1 : ℤ) * (d2 : ℤ) = (N : ℤ)
              then some ((d1 : ℤ), (d2 : ℤ)) else none) = some (f1, f2) := hres2
          by_cases hcond : (d1 : ℤ) ≠ 0 ∧ (d2 : ℤ) ≠ 0 ∧ (d1 : ℤ) * (d2 : ℤ) = (N : ℤ)
          · rw [if_pos hcond] at hres3
            simp only [Option.some.injEq, Prod.mk.injEq] at hres3
            obtain ⟨hf1, hf2⟩ := hres3
            obtain ⟨hz1, hz2, hprod⟩ := hcond
            have hprodN : d1 * d2 = N := by exact_mod_cast hprod
            have hd1N : d1 ∣ N := by
              have h := @Int.gcd_dvd_right ((x : ℤ) - 1) (N : ℤ)
              rw [← hd1def] at h
              exact_mod_cast h
            have hd1le : d1 ≤ N := Nat.le_of_dvd (by omega) hd1N
            have hd1ne1 : d1 ≠ 1 := by
              intro h1
              have hd2N : d2 = N := by
                rw [h1, Nat.one_mul] at hprodN
                exact hprodN
              have hdl := @Int.gcd_dvd_left ((x : ℤ) + 1) (N : ℤ)
              rw [← hd2def, hd2N] at hdl
              have hdvN : N ∣ x + 1 := by exact_mod_cast hdl
              have := Nat.le_of_dvd (by omega) hdvN
              omega
            have hd1neN : d1 ≠ N := by
              intro h1
              have hdl := @Int.gcd_dvd_left ((x : ℤ) - 1) (N : ℤ)
              rw [← hd1def, h1] at hdl
              by_cases hx0 : x = 0
              · rw [hx0] at hdl
                have h3 : ((0 : ℕ) : ℤ) - 1 = -1 := by norm_num
                rw [h3] at hdl
                have h2 : (N : ℤ) ∣ 1 := (dvd_neg).mp hdl
                have := Int.le_of_dvd (by norm_num) h2
                omega
              · have hcast : ((x : ℤ) - 1) = ((x - 1 : ℕ) : ℤ) := by omega
                rw [hcast] at hdl
                have hdvN : N ∣ x - 1 := by exact_mod_cast hdl
                have h0 : x - 1 = 0 := Nat.eq_zero_of_dvd_of_lt hdvN (by omega)
                omega
            have hd1z : d1 ≠ 0 := by
              intro h0
              rw [h0] at hz1
              exact hz1 (by norm_num)
            have hd2ge : 2 ≤ d2 := by
              have h0 : d2 ≠ 0 := by
                intro h0
                rw [h0, Nat.mul_zero] at hprodN
                omega
              have h1 : d2 ≠ 1 := by
                intro h1
                rw [h1, Nat.mul_one] at hprodN
                omega
              omega
            have hd2lt : d2 < N := by
              have h2 : 2 * d2 ≤ d1 * d2 := Nat.mul_le_mul_right d2 (by omega)
              have h3 : 2 * d2 ≤ N := by
                rw [← hprodN]
                exact h2
              omega
            subst hf1
            subst hf2
            refine ⟨hprod, ?_, ?_, ?_, ?_⟩
            · exact_mod_cast (by omega : 1 < d1)
            · exact_mod_cast (by omega : d1 < N)
            · exact_mod_cast (by omega : 1 < d2)
            · exact_mod_cast hd2lt
          · rw [if_neg hcond] at hres3
            exact absurd hres3 (by simp)

theorem quantum_symmetry_factor_pair_nontrivial_witness :
    3 ≤ 15 ∧ 2 ≤ 5 ∧ 5 ≤ 15 - 1 ∧ quantum_symmetry_factor 15 5 = some (5, 3) ∧
      ((5 : ℤ) * 3 = (15 : ℤ) ∧ 1 < (5 : ℤ) ∧ (5 : ℤ) < (15 : ℤ) ∧
       1 < (3 : ℤ) ∧ (3 : ℤ) < (15 : ℤ)) := by
  have hrun : quantum_symmetry_factor 15 5 = some (5, 3) := by
    have h : pyGcd 5 15 = 5 := by
      rw [pyGcd_eq_gcd_pos 15 (by norm_num) 5]
      decide
    unfold quantum_symmetry_factor quantum_symmetry_factor_gen
    rw [show ((5 : ℕ) : ℤ) = (5 : ℤ) from rfl, show ((15 : ℕ) : ℤ) = (15 : ℤ) from rfl, h]
    norm_num
    decide
  exact ⟨by norm_num, by norm_num, by norm_num, hrun,
    quantum_symmetry_factor_pair_nontrivial 15 5 5 3 (by norm_num) (by norm_num)
      (by norm_num) hrun⟩
